import Mathlib

/-!
Verification of the stepper-motor controller firmware (src/main.c).

The development shallowly embeds the C program:
* machine integers are `Nat` / `Int` with explicit reduction modulo 2^16
  where the C types (`uint16_t`, `int16_t` on AVR, where `int` is 16 bits
  wide) wrap;
* the UART receive interrupt handler `ISR(USART_RXC_vect)` becomes the
  state-transition function `isrStep` on `IsrState`;
* the foreground stepping engine (`my_delay_us`, `stepper_rotate`, the
  body of the `while (1)` loop in `main`) becomes functions producing an
  explicit event trace (`Ev`) of coil-output writes and 10 microsecond
  delay-primitive invocations;
* the `cli()`/`sei()` snapshot of the two shared variables is modelled by a
  byte-granular micro-op machine in which the interrupt handler can run,
  atomically, between any two foreground micro-operations while
  interrupts are enabled.
-/

/-- NUL character, the C string terminator written by the handler. -/
def NUL : Char := Char.ofNat 0

/-- C `isspace` for the default locale: space, \t, \n, \v, \f, \r. -/
def isSpaceChar (c : Char) : Bool :=
  c = ' ' || c = '\t' || c = '\n' || c = '\x0b' || c = '\x0c' || c = '\r'

/-- Digit-accumulation loop of `atoi`: consume decimal digits, stopping at
the first non-digit character (the NUL terminator in particular). -/
def parseNat : List Char → Nat → Nat
  | [], acc => acc
  | c :: cs, acc => if c.isDigit then parseNat cs (10 * acc + (c.toNat - 48)) else acc

/-- Reduce a mathematical integer into the signed 16-bit range
[-32768, 32767], i.e. two's-complement wraparound of 16-bit `int`. -/
def wrap16 (v : Int) : Int := (v + 32768) % 65536 - 32768

/-- Conversion of an integer value to `uint16_t` (the C cast
`(uint16_t)v`): reduction modulo 2^16 into [0, 65535]. -/
def toUInt16 (v : Int) : Nat := (v % 65536).toNat

/-- Reinterpretation of a stored `uint16_t` bit pattern as `int16_t`
(the C conversion `int16_t x = u;` as avr-gcc implements it). -/
def uint16ToInt16 (n : Nat) : Int := if n < 32768 then (n : Int) else (n : Int) - 65536

/-- avr-libc `atoi` on a NUL-terminated string, as the handler calls it:
skip leading whitespace, accept one optional sign, accumulate decimal
digits in 16-bit `int` arithmetic (wraparound), stop at the first
non-digit. An empty or digit-free string yields 0. -/
def atoi (s : List Char) : Int :=
  match s.dropWhile isSpaceChar with
  | [] => 0
  | c :: r =>
    if c = '-' then wrap16 (-(parseNat r 0 : Int))
    else if c = '+' then wrap16 (parseNat r 0 : Int)
    else wrap16 (parseNat (c :: r) 0 : Int)

/-- State owned and mutated by `ISR(USART_RXC_vect)`:
the 7-byte line buffer `m_received`, the cursor `m_rx_index` (a
`uint8_t`), and the two shared `uint16_t` variables `m_stepper_delay`
and `m_stepper_position`. The two booleans instrument the model: they
record that a buffer write was attempted at an index at or beyond the
7-byte capacity (`List.set` drops such writes), separately for the
byte-append in the else-branch and for the NUL-terminator write in the
newline branch. -/
structure IsrState where
  m_received : List Char
  m_rx_index : Nat
  m_stepper_delay : Nat
  m_stepper_position : Nat
  oob_append : Bool
  oob_term : Bool
deriving Repr, DecidableEq

/-- One execution of `ISR(USART_RXC_vect)` for a received byte.

On a newline: write the NUL terminator at the cursor, interpret the
line (`s` sets the delay with the sentinel check, `p` sets the
position, anything else is ignored), and reset the cursor. The parse
reads the six cells `m_received[1..6]`; `atoi` itself stops at the NUL
terminator (or at the end of the array). Note that on AVR `int` is 16
bits, so `m_stepper_delay == INT16_MAX` compares the unsigned value
with 32767 and `m_stepper_delay == INT16_MIN` compares it, after the
usual arithmetic conversion to `unsigned int`, with 32768.

On any other byte: append it at the cursor and advance the cursor
(`uint8_t` arithmetic, so modulo 256), with no bound check. -/
def isrStep (st : IsrState) (byte : Char) : IsrState :=
  if byte = '\n' then
    let buf := st.m_received.set st.m_rx_index NUL
    let ot := st.oob_term || decide (7 ≤ st.m_rx_index)
    let cstr := [buf.getD 1 NUL, buf.getD 2 NUL, buf.getD 3 NUL,
                 buf.getD 4 NUL, buf.getD 5 NUL, buf.getD 6 NUL]
    if buf.getD 0 NUL = 's' then
      let d := toUInt16 (atoi cstr)
      let d2 := if d = 32767 ∨ d = 32768 then 0 else d
      { st with m_received := buf, oob_term := ot, m_stepper_delay := d2, m_rx_index := 0 }
    else if buf.getD 0 NUL = 'p' then
      { st with m_received := buf, oob_term := ot,
                m_stepper_position := toUInt16 (atoi cstr), m_rx_index := 0 }
    else
      { st with m_received := buf, oob_term := ot, m_rx_index := 0 }
  else
    { st with m_received := st.m_received.set st.m_rx_index byte,
              oob_append := st.oob_append || decide (7 ≤ st.m_rx_index),
              m_rx_index := (st.m_rx_index + 1) % 256 }

/-- Feed a sequence of received bytes to the interrupt handler. -/
def processBytes (bs : List Char) (st : IsrState) : IsrState :=
  bs.foldl isrStep st

/-- Reset state of the firmware: C static objects are zero-initialized. -/
def initialState : IsrState :=
  { m_received := List.replicate 7 NUL
    m_rx_index := 0
    m_stepper_delay := 0
    m_stepper_position := 0
    oob_append := false
    oob_term := false }

/-- Net effect of the `s` branch on `m_stepper_delay` for a parsed
remainder: assign the cast parse result, then force it to 0 if it
equals 32767 or 32768 (the `INT16_MAX` / `INT16_MIN` comparisons). -/
def delayAfterParse (rest : List Char) : Nat :=
  let d := toUInt16 (atoi rest)
  if d = 32767 ∨ d = 32768 then 0 else d

/-- Observable events emitted by the stepping engine: a write of a coil
bit pattern to `PORTC`, or one invocation of the 10 microsecond delay
primitive `_delay_us(10)`. -/
inductive Ev where
  | coil (pattern : Nat)
  | tick
deriving Repr, DecidableEq

/-- Trace of `my_delay_us(us)`: the loop `while (us--) _delay_us(10);`
runs the body exactly `us` times (for `us = 0` the first test fails and
the loop exits immediately; the final wraparound of the counter is
unobservable). -/
def my_delay_us : Nat → List Ev
  | 0 => []
  | n + 1 => Ev.tick :: my_delay_us n

/-- Trace of the inner `for (i = 0; i < SEQ_SIZE; i++)` loop of
`stepper_rotate`: write each entry of the sequence to the coil output,
then hold for the configured delay. -/
def rotateCycle (seq : List Nat) (delay : Nat) : List Ev :=
  match seq with
  | [] => []
  | p :: rest => Ev.coil p :: (my_delay_us delay ++ rotateCycle rest delay)

/-- Trace of `stepper_rotate(seq, delay, dif_position)`: the outer
`while (count < dif_position)` loop drives `dif_position` full cycles. -/
def stepper_rotate (seq : List Nat) (delay : Nat) : Nat → List Ev
  | 0 => []
  | n + 1 => rotateCycle seq delay ++ stepper_rotate seq delay n

/-- Coils sequence described clock-wise rotation (from `main`). -/
def seq_cw : List Nat := [0x1, 0x3, 0x2, 0x6, 0x4, 0xc, 0x8, 0x9]

/-- Coils sequence described counter clock-wise rotation (from `main`). -/
def seq_ccw : List Nat := [0x9, 0x8, 0xc, 0x4, 0x6, 0x2, 0x3, 0x1]

/-- Coil bit patterns written in a trace, in order. -/
def coilsOf (tr : List Ev) : List Nat :=
  tr.filterMap fun e =>
    match e with
    | .coil p => some p
    | .tick => none

/-- List repeated and concatenated n times (n full cycles laid out). -/
def repList (l : List Nat) : Nat → List Nat
  | 0 => []
  | n + 1 => l ++ repList l n

/-- One iteration of the foreground `while (1)` loop in `main`, after
the snapshot: given the snapshotted delay and position and the local
`previous_position`, compute `dif_position = position -
previous_position` in (wrapping) 16-bit `int` arithmetic, rotate in the
corresponding direction, and return the emitted trace together with the
updated `previous_position`. The negation `dif_position =
-dif_position` and the cast `(uint16_t)dif_position` are likewise
16-bit operations. -/
def mainIter (delay : Nat) (position previous_position : Int) : List Ev × Int :=
  let dif_position := wrap16 (position - previous_position)
  if 0 < dif_position then
    (stepper_rotate seq_cw delay (toUInt16 dif_position), position)
  else if dif_position < 0 then
    (stepper_rotate seq_ccw delay (toUInt16 (wrap16 (-dif_position))), position)
  else
    ([], position)

/-- A completed command line, as the interrupt handler publishes it:
each command writes exactly one of the two shared `uint16_t` variables.
The handler runs to completion, and on this 8-bit machine its two
single-byte stores to the written variable cannot be interleaved by the
foreground task (the foreground only observes memory between its own
instructions, and the handler preempts it atomically), so one write is
one atomic update of both bytes of one variable. -/
inductive IsrWrite where
  | setDelay (v : Nat)
  | setPos (v : Nat)
deriving Repr, DecidableEq

/-- The two shared variables laid out as four single-byte memory cells,
the granularity at which the 8-bit foreground code reads them. -/
structure Mem where
  dLo : Nat
  dHi : Nat
  pLo : Nat
  pHi : Nat
deriving Repr, DecidableEq

/-- Apply one completed command to shared memory. -/
def applyWrite (m : Mem) : IsrWrite → Mem
  | .setDelay v => { m with dLo := v % 256, dHi := v / 256 % 256 }
  | .setPos v => { m with pLo := v % 256, pHi := v / 256 % 256 }

/-- Apply a burst of completed commands to shared memory. -/
def applyBatch (m : Mem) (ws : List IsrWrite) : Mem :=
  ws.foldl applyWrite m

/-- Micro-operations of the snapshot block in `main` (lines 112-116):
`cli()`, the four single-byte loads of `m_stepper_delay` and
`m_stepper_position`, and `sei()`. -/
inductive MicroOp where
  | opCli
  | rdDLo
  | rdDHi
  | rdPLo
  | rdPHi
  | opSei
deriving Repr, DecidableEq

/-- The snapshot block, in program order. -/
def snapshotProg : List MicroOp := [.opCli, .rdDLo, .rdDHi, .rdPLo, .rdPHi, .opSei]

/-- Foreground execution state during the snapshot: shared memory, the
interrupt-enable flag (SREG I-bit), and the bytes read so far into the
local variables `delay` and `position`. -/
structure FgState where
  mem : Mem
  enabled : Bool
  dLo : Nat
  dHi : Nat
  pLo : Nat
  pHi : Nat
deriving Repr, DecidableEq

/-- Execute one foreground micro-operation. -/
def execOp (s : FgState) : MicroOp → FgState
  | .opCli => { s with enabled := false }
  | .opSei => { s with enabled := true }
  | .rdDLo => { s with dLo := s.mem.dLo }
  | .rdDHi => { s with dHi := s.mem.dHi }
  | .rdPLo => { s with pLo := s.mem.pLo }
  | .rdPHi => { s with pHi := s.mem.pHi }

/-- One scheduling point followed by one micro-operation: if interrupts
are enabled, the adversarial scheduler may first deliver any burst of
completed command lines; if they are masked, the interrupt is deferred
past the snapshot and nothing runs here. -/
def stepSched (s : FgState) (ws : List IsrWrite) (op : MicroOp) : FgState :=
  let s1 := if s.enabled then { s with mem := applyBatch s.mem ws } else s
  execOp s1 op

/-- Run the remaining micro-operations, consulting the schedule
`sched i` at the i-th scheduling point. -/
def runFrom (sched : Nat → List IsrWrite) : FgState → Nat → List MicroOp → FgState
  | s, _, [] => s
  | s, i, op :: ops => runFrom sched (stepSched s (sched i) op) (i + 1) ops

/-- Execute the whole snapshot block against an adversarial interrupt
schedule, starting from shared memory `m0` with interrupt-enable state
`en0`. -/
def runSnapshot (m0 : Mem) (en0 : Bool) (sched : Nat → List IsrWrite) : FgState :=
  runFrom sched { mem := m0, enabled := en0, dLo := 0, dHi := 0, pLo := 0, pHi := 0 } 0 snapshotProg

/-- The 16-bit value stored in the delay cells of a memory state. -/
def memDelay (m : Mem) : Nat := m.dLo + 256 * m.dHi

/-- The 16-bit value stored in the position cells of a memory state. -/
def memPos (m : Mem) : Nat := m.pLo + 256 * m.pHi

/-- Decimal digit characters of a natural number, most significant
first (used to state claims about command lines of the form s<N> or
p<N>). -/
def natDecChars (n : Nat) : List Char :=
  (Nat.digits 10 n).reverse.map fun d => Char.ofNat (48 + d)

/-- Canonical decimal rendering of an integer, as it appears in a
command line: an optional leading minus sign followed by the digits. -/
def intToDecChars (n : Int) : List Char :=
  if n < 0 then '-' :: natDecChars n.natAbs
  else if n = 0 then ['0'] else natDecChars n.toNat

/-- Value of a most-significant-first digit list under a
multiply-accumulate fold, the reference against which the digit loop of
`atoi` is proved correct. -/
def valMSD : List Nat → Nat → Nat
  | [], acc => acc
  | d :: ds, acc => valMSD ds (10 * acc + d)

theorem my_delay_us_eq_replicate (d : Nat) : my_delay_us d = List.replicate d Ev.tick := by
  induction d with
  | zero => rfl
  | succ n ih => simp [my_delay_us, ih, List.replicate_succ]

theorem coilsOf_append (xs ys : List Ev) : coilsOf (xs ++ ys) = coilsOf xs ++ coilsOf ys := by
  simp [coilsOf]

theorem coilsOf_my_delay_us (d : Nat) : coilsOf (my_delay_us d) = [] := by
  induction d with
  | zero => rfl
  | succ n ih => simp [my_delay_us, coilsOf] at ih ⊢; exact ih

theorem coilsOf_rotateCycle (seq : List Nat) (d : Nat) : coilsOf (rotateCycle seq d) = seq := by
  induction seq with
  | nil => rfl
  | cons p rest ih =>
    have h1 : coilsOf (rotateCycle (p :: rest) d) =
        p :: (coilsOf (my_delay_us d) ++ coilsOf (rotateCycle rest d)) := by
      simp [rotateCycle, coilsOf]
    rw [h1, coilsOf_my_delay_us, ih]
    rfl

theorem coilsOf_stepper_rotate (seq : List Nat) (d n : Nat) :
    coilsOf (stepper_rotate seq d n) = repList seq n := by
  induction n with
  | zero => rfl
  | succ m ih =>
    rw [stepper_rotate, coilsOf_append, coilsOf_rotateCycle, ih, repList]

theorem length_repList (l : List Nat) (n : Nat) : (repList l n).length = n * l.length := by
  induction n with
  | zero => simp [repList]
  | succ m ih => rw [repList, List.length_append, ih]; ring

theorem wrap16_lb (v : Int) : -32768 ≤ wrap16 v := by
  unfold wrap16; omega

theorem wrap16_ub (v : Int) : wrap16 v ≤ 32767 := by
  unfold wrap16; omega

theorem wrap16_eq_self (v : Int) (h1 : -32768 ≤ v) (h2 : v ≤ 32767) : wrap16 v = v := by
  unfold wrap16; omega

theorem toUInt16_of_nonneg (v : Int) (h1 : 0 ≤ v) (h2 : v ≤ 65535) : toUInt16 v = v.toNat := by
  unfold toUInt16; omega

theorem toUInt16_wrap16_neg (w : Int) (h1 : -32768 ≤ w) (h2 : w < 0) :
    toUInt16 (wrap16 (-w)) = (-w).toNat := by
  unfold toUInt16 wrap16; omega

/-- Characterization of a foreground iteration: the coil writes follow
the sign and magnitude of the 16-bit wrapped difference, and
`previous_position` is updated to the snapshotted position. -/
theorem mainIter_spec (delay : Nat) (position prev : Int) :
    coilsOf (mainIter delay position prev).1 =
      (if 0 < wrap16 (position - prev) then repList seq_cw (wrap16 (position - prev)).toNat
       else if wrap16 (position - prev) < 0 then
         repList seq_ccw (-(wrap16 (position - prev))).toNat
       else [])
    ∧ (mainIter delay position prev).2 = position := by
  unfold mainIter
  by_cases hpos : 0 < wrap16 (position - prev)
  · simp only [hpos, if_pos]
    refine ⟨?_, by trivial⟩
    rw [coilsOf_stepper_rotate,
      toUInt16_of_nonneg _ (le_of_lt hpos) (le_trans (wrap16_ub _) (by norm_num))]
  · by_cases hneg : wrap16 (position - prev) < 0
    · simp only [hpos, hneg, if_neg, if_pos, if_false]
      refine ⟨?_, by trivial⟩
      rw [coilsOf_stepper_rotate, toUInt16_wrap16_neg _ (wrap16_lb _) hneg]
    · simp only [hpos, hneg, if_false]
      exact ⟨by trivial, by trivial⟩

theorem parseNat_append_nul (xs junk : List Char) (acc : Nat) (h : NUL ∉ xs) :
    parseNat (xs ++ NUL :: junk) acc = parseNat xs acc := by
  induction xs generalizing acc with
  | nil =>
    have hd : NUL.isDigit = false := by decide
    simp [parseNat, hd]
  | cons x xs ih =>
    have hx : NUL ∉ xs := fun hm => h (List.mem_cons_of_mem _ hm)
    by_cases hdig : x.isDigit
    · simp [parseNat, hdig, ih _ hx]
    · simp [parseNat, hdig]

theorem atoi_skip (c : Char) (l : List Char) (h : isSpaceChar c = true) :
    atoi (c :: l) = atoi l := by
  simp [atoi, List.dropWhile_cons, h]

theorem atoi_append_nul (xs junk : List Char) (h : NUL ∉ xs) :
    atoi (xs ++ NUL :: junk) = atoi xs := by
  induction xs with
  | nil =>
    have h1 : isSpaceChar NUL = false := by decide
    have h2 : NUL.isDigit = false := by decide
    have h3 : ¬(NUL = '-') := by decide
    have h4 : ¬(NUL = '+') := by decide
    simp [atoi, List.dropWhile_cons, h1, h2, h3, h4, parseNat]
    decide
  | cons x xs ih =>
    have hx : NUL ∉ xs := fun hm => h (List.mem_cons_of_mem _ hm)
    have hxne : ¬(NUL = x) := by
      intro he; exact h (by rw [he]; exact List.mem_cons_self _ _)
    by_cases hsp : isSpaceChar x
    · rw [List.cons_append, atoi_skip x _ hsp, atoi_skip x _ hsp, ih hx]
    · have hsp2 : isSpaceChar x = false := by
        cases hh : isSpaceChar x
        · rfl
        · exact absurd hh hsp
      by_cases hminus : x = '-'
      · subst hminus
        simp [atoi, List.dropWhile_cons, (by decide : isSpaceChar '-' = false),
          parseNat_append_nul xs junk 0 hx]
      · by_cases hplus : x = '+'
        · subst hplus
          simp [atoi, List.dropWhile_cons, (by decide : isSpaceChar '+' = false),
            (by decide : ¬('+' = '-')), parseNat_append_nul xs junk 0 hx]
        · have hfull : parseNat ((x :: xs) ++ NUL :: junk) 0 = parseNat (x :: xs) 0 :=
            parseNat_append_nul (x :: xs) junk 0 (by
              intro hm
              rcases List.mem_cons.mp hm with he | hm2
              · exact hxne he
              · exact hx hm2)
          simp only [atoi, List.cons_append, List.dropWhile_cons, hsp2, Bool.false_eq_true,
            if_false, hminus, hplus, if_neg]
          rw [← List.cons_append, hfull]

/-- Effect of one complete command line on the interpreter state.
Starting at a line boundary (cursor 0) and feeding a line that fits the
buffer (at most 6 bytes after the command letter) followed by a
newline: an `s` line runs the delay assignment with the sentinel
check, a `p` line assigns the position, any other line leaves both
shared variables unchanged, and the cursor is reset in every case. -/
theorem processLine_eval (c : Char) (rest : List Char) (st : IsrState)
    (h0 : st.m_rx_index = 0) (h7 : st.m_received.length = 7)
    (hcnl : c ≠ '\n') (hrnl : '\n' ∉ rest) (hlen : rest.length ≤ 6)
    (hz : (c = 's' ∨ c = 'p') → NUL ∉ rest) :
    (processBytes (c :: rest ++ ['\n']) st).m_stepper_delay =
      (if c = 's' then delayAfterParse rest else st.m_stepper_delay)
    ∧ (processBytes (c :: rest ++ ['\n']) st).m_stepper_position =
      (if c = 's' then st.m_stepper_position
       else if c = 'p' then toUInt16 (atoi rest) else st.m_stepper_position)
    ∧ (processBytes (c :: rest ++ ['\n']) st).m_rx_index = 0 := by
  obtain ⟨buf, rx, dl, ps, oa, ot⟩ := st
  simp only at h0 h7 ⊢
  subst h0
  have hs : ¬(NUL = 's') := by decide
  have hp : ¬(NUL = 'p') := by decide
  rcases buf with _ | ⟨r0, _ | ⟨r1, _ | ⟨r2, _ | ⟨r3, _ | ⟨r4, _ | ⟨r5, _ | ⟨r6, buf2⟩⟩⟩⟩⟩⟩⟩ <;>
    simp only [List.length_cons, List.length_nil] at h7 <;> try omega
  rcases buf2 with _ | ⟨r7, buf3⟩
  case cons.cons => simp only [List.length_cons] at h7; omega
  rcases rest with _ | ⟨a0, _ | ⟨a1, _ | ⟨a2, _ | ⟨a3, _ | ⟨a4, _ | ⟨a5, rest2⟩⟩⟩⟩⟩⟩
  case nil =>
    by_cases hcs : c = 's'
    · subst hcs
      have hnul := atoi_append_nul [] [r2, r3, r4, r5, r6] (by simp)
      simp only [List.nil_append] at hnul
      simp [processBytes, isrStep, hcnl, delayAfterParse, List.getD, hnul]
    · by_cases hcp : c = 'p'
      · subst hcp
        have hnul := atoi_append_nul [] [r2, r3, r4, r5, r6] (by simp)
        simp only [List.nil_append] at hnul
        simp [processBytes, isrStep, hcnl, List.getD, hnul]
      · simp [processBytes, isrStep, hcnl, hcs, hcp, List.getD]
  case cons.nil =>
    simp only [List.mem_cons, List.not_mem_nil, not_or] at hrnl
    obtain ⟨h1, -⟩ := hrnl
    by_cases hcs : c = 's'
    · subst hcs
      have hnul := atoi_append_nul [a0] [r3, r4, r5, r6] (hz (Or.inl rfl))
      simp only [List.cons_append, List.nil_append] at hnul
      simp [processBytes, isrStep, hcnl, Ne.symm h1, delayAfterParse, List.getD, hnul]
    · by_cases hcp : c = 'p'
      · subst hcp
        have hnul := atoi_append_nul [a0] [r3, r4, r5, r6] (hz (Or.inr rfl))
        simp only [List.cons_append, List.nil_append] at hnul
        simp [processBytes, isrStep, hcnl, Ne.symm h1, List.getD, hnul]
      · simp [processBytes, isrStep, hcnl, Ne.symm h1, hcs, hcp, List.getD]
  case cons.cons.nil =>
    simp only [List.mem_cons, List.not_mem_nil, not_or] at hrnl
    obtain ⟨h1, h2, -⟩ := hrnl
    by_cases hcs : c = 's'
    · subst hcs
      have hnul := atoi_append_nul [a0, a1] [r4, r5, r6] (hz (Or.inl rfl))
      simp only [List.cons_append, List.nil_append] at hnul
      simp [processBytes, isrStep, hcnl, Ne.symm h1, Ne.symm h2, delayAfterParse,
        List.getD, hnul]
    · by_cases hcp : c = 'p'
      · subst hcp
        have hnul := atoi_append_nul [a0, a1] [r4, r5, r6] (hz (Or.inr rfl))
        simp only [List.cons_append, List.nil_append] at hnul
        simp [processBytes, isrStep, hcnl, Ne.symm h1, Ne.symm h2, List.getD, hnul]
      · simp [processBytes, isrStep, hcnl, Ne.symm h1, Ne.symm h2, hcs, hcp, List.getD]
  case cons.cons.cons.nil =>
    simp only [List.mem_cons, List.not_mem_nil, not_or] at hrnl
    obtain ⟨h1, h2, h3, -⟩ := hrnl
    by_cases hcs : c = 's'
    · subst hcs
      have hnul := atoi_append_nul [a0, a1, a2] [r5, r6] (hz (Or.inl rfl))
      simp only [List.cons_append, List.nil_append] at hnul
      simp [processBytes, isrStep, hcnl, Ne.symm h1, Ne.symm h2, Ne.symm h3,
        delayAfterParse, List.getD, hnul]
    · by_cases hcp : c = 'p'
      · subst hcp
        have hnul := atoi_append_nul [a0, a1, a2] [r5, r6] (hz (Or.inr rfl))
        simp only [List.cons_append, List.nil_append] at hnul
        simp [processBytes, isrStep, hcnl, Ne.symm h1, Ne.symm h2, Ne.symm h3,
          List.getD, hnul]
      · simp [processBytes, isrStep, hcnl, Ne.symm h1, Ne.symm h2, Ne.symm h3, hcs, hcp,
          List.getD]
  case cons.cons.cons.cons.nil =>
    simp only [List.mem_cons, List.not_mem_nil, not_or] at hrnl
    obtain ⟨h1, h2, h3, h4, -⟩ := hrnl
    by_cases hcs : c = 's'
    · subst hcs
      have hnul := atoi_append_nul [a0, a1, a2, a3] [r6] (hz (Or.inl rfl))
      simp only [List.cons_append, List.nil_append] at hnul
      simp [processBytes, isrStep, hcnl, Ne.symm h1, Ne.symm h2, Ne.symm h3, Ne.symm h4,
        delayAfterParse, List.getD, hnul]
    · by_cases hcp : c = 'p'
      · subst hcp
        have hnul := atoi_append_nul [a0, a1, a2, a3] [r6] (hz (Or.inr rfl))
        simp only [List.cons_append, List.nil_append] at hnul
        simp [processBytes, isrStep, hcnl, Ne.symm h1, Ne.symm h2, Ne.symm h3, Ne.symm h4,
          List.getD, hnul]
      · simp [processBytes, isrStep, hcnl, Ne.symm h1, Ne.symm h2, Ne.symm h3, Ne.symm h4,
          hcs, hcp, List.getD]
  case cons.cons.cons.cons.cons.nil =>
    simp only [List.mem_cons, List.not_mem_nil, not_or] at hrnl
    obtain ⟨h1, h2, h3, h4, h5, -⟩ := hrnl
    by_cases hcs : c = 's'
    · subst hcs
      have hnul := atoi_append_nul [a0, a1, a2, a3, a4] [] (hz (Or.inl rfl))
      simp only [List.cons_append, List.nil_append] at hnul
      simp [processBytes, isrStep, hcnl, Ne.symm h1, Ne.symm h2, Ne.symm h3, Ne.symm h4,
        Ne.symm h5, delayAfterParse, List.getD, hnul]
    · by_cases hcp : c = 'p'
      · subst hcp
        have hnul := atoi_append_nul [a0, a1, a2, a3, a4] [] (hz (Or.inr rfl))
        simp only [List.cons_append, List.nil_append] at hnul
        simp [processBytes, isrStep, hcnl, Ne.symm h1, Ne.symm h2, Ne.symm h3, Ne.symm h4,
          Ne.symm h5, List.getD, hnul]
      · simp [processBytes, isrStep, hcnl, Ne.symm h1, Ne.symm h2, Ne.symm h3, Ne.symm h4,
          Ne.symm h5, hcs, hcp, List.getD]
  rcases rest2 with _ | ⟨a6, rest3⟩
  case cons.cons.cons.cons.cons.cons.cons =>
    simp only [List.length_cons] at hlen
    omega
  case cons.cons.cons.cons.cons.cons.nil =>
    simp only [List.mem_cons, List.not_mem_nil, not_or] at hrnl
    obtain ⟨h1, h2, h3, h4, h5, h6, -⟩ := hrnl
    by_cases hcs : c = 's'
    · subst hcs
      simp [processBytes, isrStep, hcnl, Ne.symm h1, Ne.symm h2, Ne.symm h3, Ne.symm h4,
        Ne.symm h5, Ne.symm h6, delayAfterParse, List.getD, List.set]
    · by_cases hcp : c = 'p'
      · subst hcp
        simp [processBytes, isrStep, hcnl, Ne.symm h1, Ne.symm h2, Ne.symm h3, Ne.symm h4,
          Ne.symm h5, Ne.symm h6, List.getD, List.set]
      · simp [processBytes, isrStep, hcnl, Ne.symm h1, Ne.symm h2, Ne.symm h3, Ne.symm h4,
          Ne.symm h5, Ne.symm h6, hcs, hcp, List.getD, List.set]

theorem processBytes_rx_index (bs : List Char) (st : IsrState)
    (hnl : '\n' ∉ bs) (hlen : st.m_rx_index + bs.length ≤ 255) :
    (processBytes bs st).m_rx_index = st.m_rx_index + bs.length := by
  induction bs generalizing st with
  | nil => simp [processBytes]
  | cons b bs ih =>
    have hb : ¬(b = '\n') := by
      intro he; exact hnl (by rw [he]; exact List.mem_cons_self _ _)
    have hbs : '\n' ∉ bs := fun hm => hnl (List.mem_cons_of_mem _ hm)
    have hstep : (isrStep st b).m_rx_index = st.m_rx_index + 1 := by
      simp only [isrStep, hb, if_false]
      simp only [List.length_cons] at hlen
      omega
    have : processBytes (b :: bs) st = processBytes bs (isrStep st b) := by
      simp [processBytes]
    rw [this, ih (isrStep st b) hbs (by rw [hstep]; simp only [List.length_cons] at hlen; omega),
      hstep]
    simp only [List.length_cons]
    omega

theorem isrStep_oob_append_mono (st : IsrState) (b : Char) (h : st.oob_append = true) :
    (isrStep st b).oob_append = true := by
  unfold isrStep
  by_cases hb : b = '\n'
  · rw [if_pos hb]
    dsimp only
    split
    · exact h
    · split
      · exact h
      · exact h
  · rw [if_neg hb]
    simp [h]

theorem oob_append_mono (bs : List Char) (st : IsrState) (h : st.oob_append = true) :
    (processBytes bs st).oob_append = true := by
  induction bs generalizing st with
  | nil => simpa [processBytes] using h
  | cons b bs ih =>
    have hrun : processBytes (b :: bs) st = processBytes bs (isrStep st b) := by
      simp [processBytes]
    rw [hrun]
    exact ih _ (isrStep_oob_append_mono st b h)

theorem oob_append_reach (bs : List Char) (st : IsrState)
    (hnl : '\n' ∉ bs) (hrx : st.m_rx_index ≤ 7)
    (hge : 8 ≤ st.m_rx_index + bs.length) (hle : st.m_rx_index + bs.length ≤ 255) :
    (processBytes bs st).oob_append = true := by
  induction bs generalizing st with
  | nil => simp only [List.length_nil] at hge; omega
  | cons b bs ih =>
    have hb : ¬(b = '\n') := by
      intro he; exact hnl (by rw [he]; exact List.mem_cons_self _ _)
    have hbs : '\n' ∉ bs := fun hm => hnl (List.mem_cons_of_mem _ hm)
    have hrun : processBytes (b :: bs) st = processBytes bs (isrStep st b) := by
      simp [processBytes]
    rw [hrun]
    by_cases h7 : st.m_rx_index = 7
    · apply oob_append_mono
      simp [isrStep, hb, h7]
    · have hlt : st.m_rx_index < 7 := by omega
      have hstep_rx : (isrStep st b).m_rx_index = st.m_rx_index + 1 := by
        simp only [isrStep, hb, if_false]
        omega
      apply ih
      · exact hbs
      · omega
      · simp only [List.length_cons] at hge
        omega
      · simp only [List.length_cons] at hle
        omega

theorem isrStep_newline_oob_append (st : IsrState) :
    (isrStep st '\n').oob_append = st.oob_append := by
  unfold isrStep
  rw [if_pos rfl]
  dsimp only
  split
  · rfl
  · split
    · rfl
    · rfl

theorem isrStep_newline_oob_term (st : IsrState) (h : 7 ≤ st.m_rx_index) :
    (isrStep st '\n').oob_term = true := by
  unfold isrStep
  rw [if_pos rfl]
  dsimp only
  have hd : decide (7 ≤ st.m_rx_index) = true := decide_eq_true h
  split
  · simp [hd]
  · split
    · simp [hd]
    · simp [hd]

theorem digitChar_facts (d : Nat) (h : d < 10) :
    (Char.ofNat (48 + d)).isDigit = true ∧ (Char.ofNat (48 + d)).toNat = 48 + d ∧
    isSpaceChar (Char.ofNat (48 + d)) = false ∧ ¬(Char.ofNat (48 + d) = '-') ∧
    ¬(Char.ofNat (48 + d) = '+') ∧ ¬(Char.ofNat (48 + d) = '\n') ∧
    ¬(Char.ofNat (48 + d) = NUL) := by
  interval_cases d <;>
    exact ⟨by decide, by decide, by decide, by decide, by decide, by decide, by decide⟩

theorem parseNat_mapped_digits (ds : List Nat) (acc : Nat) (h : ∀ d ∈ ds, d < 10) :
    parseNat (ds.map fun d => Char.ofNat (48 + d)) acc = valMSD ds acc := by
  induction ds generalizing acc with
  | nil => rfl
  | cons d ds ih =>
    have hd : d < 10 := h d (List.mem_cons_self _ _)
    obtain ⟨h1, h2, -, -, -, -, -⟩ := digitChar_facts d hd
    have h3 : 48 + d - 48 = d := by omega
    simp only [List.map_cons, parseNat, h1, if_true, h2, h3, valMSD]
    exact ih _ fun x hx => h x (List.mem_cons_of_mem _ hx)

theorem valMSD_eq (ds : List Nat) (acc : Nat) :
    valMSD ds acc = acc * 10 ^ ds.length + Nat.ofDigits 10 ds.reverse := by
  induction ds generalizing acc with
  | nil => simp [valMSD]
  | cons d ds ih =>
    simp only [valMSD, List.reverse_cons, List.length_cons]
    rw [ih, Nat.ofDigits_append]
    simp only [Nat.ofDigits_singleton, List.length_reverse]
    ring

theorem parseNat_natDecChars (n : Nat) : parseNat (natDecChars n) 0 = n := by
  unfold natDecChars
  rw [parseNat_mapped_digits _ 0
    (fun d hd => Nat.digits_lt_base (by norm_num) (List.mem_reverse.mp hd)), valMSD_eq]
  simp [Nat.ofDigits_digits]

theorem atoi_natDecChars (n : Nat) (hn : n ≠ 0) : atoi (natDecChars n) = wrap16 (n : Int) := by
  have hne : (Nat.digits 10 n).reverse ≠ [] := by
    simp [Nat.digits_ne_nil_iff_ne_zero, hn]
  obtain ⟨d, ds, hds⟩ := List.exists_cons_of_ne_nil hne
  have hd10 : d < 10 :=
    Nat.digits_lt_base (by norm_num) (List.mem_reverse.mp (hds ▸ List.mem_cons_self d ds))
  obtain ⟨-, -, h3, h4, h5, -, -⟩ := digitChar_facts d hd10
  have hmap : natDecChars n =
      Char.ofNat (48 + d) :: ds.map (fun x => Char.ofNat (48 + x)) := by
    unfold natDecChars
    rw [hds]
    simp
  have hparse : parseNat (Char.ofNat (48 + d) :: ds.map (fun x => Char.ofNat (48 + x))) 0 = n := by
    rw [← hmap, parseNat_natDecChars]
  rw [hmap]
  simp [atoi, List.dropWhile_cons, h3, h4, h5, hparse]

theorem atoi_intToDecChars (n : Int) : atoi (intToDecChars n) = wrap16 n := by
  unfold intToDecChars
  by_cases hneg : n < 0
  · rw [if_pos hneg]
    have hstep : atoi ('-' :: natDecChars n.natAbs) =
        wrap16 (-(parseNat (natDecChars n.natAbs) 0 : Int)) := by
      simp [atoi, List.dropWhile_cons, (by decide : isSpaceChar '-' = false)]
    rw [hstep, parseNat_natDecChars]
    congr 1
    omega
  · rw [if_neg hneg]
    by_cases h0 : n = 0
    · rw [if_pos h0, h0]
      decide
    · rw [if_neg h0]
      have hn0 : n.toNat ≠ 0 := by omega
      rw [atoi_natDecChars _ hn0]
      congr 1
      omega

theorem natDecChars_chars (n : Nat) (c : Char) (hc : c ∈ natDecChars n) :
    ¬(c = '\n') ∧ ¬(c = NUL) := by
  unfold natDecChars at hc
  obtain ⟨d, hd, heq⟩ := List.mem_map.mp hc
  have h10 : d < 10 := Nat.digits_lt_base (by norm_num) (List.mem_reverse.mp hd)
  obtain ⟨-, -, -, -, -, h6, h7⟩ := digitChar_facts d h10
  subst heq
  exact ⟨h6, h7⟩

theorem intToDecChars_no_newline (n : Int) : '\n' ∉ intToDecChars n := by
  unfold intToDecChars
  intro hm
  split at hm
  · rcases List.mem_cons.mp hm with he | hm2
    · exact (by decide : ¬('\n' = '-')) he
    · exact (natDecChars_chars _ _ hm2).1 rfl
  · split at hm
    · rcases List.mem_cons.mp hm with he | hm2
      · exact (by decide : ¬('\n' = '0')) he
      · exact absurd hm2 (List.not_mem_nil _)
    · exact (natDecChars_chars _ _ hm).1 rfl

theorem intToDecChars_no_nul (n : Int) : NUL ∉ intToDecChars n := by
  unfold intToDecChars
  intro hm
  split at hm
  · rcases List.mem_cons.mp hm with he | hm2
    · exact (by decide : ¬(NUL = '-')) he
    · exact (natDecChars_chars _ _ hm2).2 rfl
  · split at hm
    · rcases List.mem_cons.mp hm with he | hm2
      · exact (by decide : ¬(NUL = '0')) he
      · exact absurd hm2 (List.not_mem_nil _)
    · exact (natDecChars_chars _ _ hm).2 rfl

theorem digits_len_le_five (m : Nat) (h : m ≤ 65535) : (Nat.digits 10 m).length ≤ 5 := by
  rcases Nat.eq_zero_or_pos m with h0 | h0
  · subst h0
    simp
  · rw [Nat.digits_len 10 m (by norm_num) (by omega)]
    have hlt : m < 10 ^ 5 := by norm_num; omega
    have : Nat.log 10 m < 5 := Nat.log_lt_of_lt_pow (by omega) hlt
    omega

theorem natDecChars_length (m : Nat) : (natDecChars m).length = (Nat.digits 10 m).length := by
  simp [natDecChars]

theorem intToDecChars_length (n : Int) (h1 : -32768 ≤ n) (h2 : n ≤ 32767) :
    (intToDecChars n).length ≤ 6 := by
  unfold intToDecChars
  split
  · have hle : n.natAbs ≤ 65535 := by omega
    simp only [List.length_cons, natDecChars_length]
    have := digits_len_le_five n.natAbs hle
    omega
  · split
    · simp
    · have hle : n.toNat ≤ 65535 := by omega
      rw [natDecChars_length]
      have := digits_len_le_five n.toNat hle
      omega

theorem rotateCycle_foldr (seq : List Nat) (d : Nat) (tail : List Ev) :
    rotateCycle seq d ++ tail =
      seq.foldr (fun p acc => Ev.coil p :: (List.replicate d Ev.tick ++ acc)) tail := by
  induction seq with
  | nil => rfl
  | cons p rest ih =>
    simp only [rotateCycle, List.foldr_cons, List.cons_append, List.append_assoc]
    rw [ih, my_delay_us_eq_replicate]

theorem stepper_rotate_foldr (seq : List Nat) (d n : Nat) :
    stepper_rotate seq d n =
      (repList seq n).foldr (fun p acc => Ev.coil p :: (List.replicate d Ev.tick ++ acc)) [] := by
  induction n with
  | zero => rfl
  | succ m ih =>
    simp only [stepper_rotate, repList, List.foldr_append]
    rw [← ih, rotateCycle_foldr]

/-- C6: within every driven cycle, the 8 coil-output values written, in
order, are exactly the clockwise table [0x1,0x3,0x2,0x6,0x4,0xc,0x8,0x9]
when rotating clockwise, and exactly the counter-clockwise table
[0x9,0x8,0xc,0x4,0x6,0x2,0x3,0x1] when rotating counter-clockwise: the
coil writes of `stepper_rotate` are the chosen table repeated verbatim,
cycle after cycle, and the two tables hold exactly those values. -/
theorem c6_sequence_fidelity :
    (∀ delay n, coilsOf (stepper_rotate seq_cw delay n) = repList seq_cw n)
    ∧ (∀ delay n, coilsOf (stepper_rotate seq_ccw delay n) = repList seq_ccw n)
    ∧ seq_cw = [0x1, 0x3, 0x2, 0x6, 0x4, 0xc, 0x8, 0x9]
    ∧ seq_ccw = [0x9, 0x8, 0xc, 0x4, 0x6, 0x2, 0x3, 0x1] :=
  ⟨fun _ n => coilsOf_stepper_rotate _ _ n, fun _ n => coilsOf_stepper_rotate _ _ n, rfl, rfl⟩

/-- C7: with snapshotted delay D, every coil-output write is followed by
exactly D invocations of the 10 microsecond delay primitive (the
emission is, pattern by pattern, a coil write followed by D ticks); in
particular D = 0 yields zero delay invocations after each write, and
the delay loop runs exactly D times and terminates for every D (it is a
total function whose trace has length D). -/
theorem c7_timing :
    (∀ d, my_delay_us d = List.replicate d Ev.tick)
    ∧ (∀ d, (my_delay_us d).length = d)
    ∧ my_delay_us 0 = []
    ∧ (∀ seq d n, stepper_rotate seq d n =
        (repList seq n).foldr (fun p acc => Ev.coil p :: (List.replicate d Ev.tick ++ acc)) []) :=
  ⟨my_delay_us_eq_replicate,
   fun d => by rw [my_delay_us_eq_replicate]; exact List.length_replicate d Ev.tick,
   rfl,
   fun seq d n => stepper_rotate_foldr seq d n⟩

/-- C10: the position delta the engine acts on is the mathematical
difference P1 - P0 reduced into the signed 16-bit range modulo 2^16
(`wrap16`); the engine rotates in the direction of the wrapped value
and by its magnitude — `wrap16 (P1 - P0)` clockwise cycles when the
wrapped value is positive, its negation in counter-clockwise cycles
when negative (32768 cycles in the -32768 case), and none when zero —
not by the true difference. -/
theorem c10_wrapped_delta (delay : Nat) (P0 P1 : Int) :
    coilsOf (mainIter delay P1 P0).1 =
      (if 0 < wrap16 (P1 - P0) then repList seq_cw (wrap16 (P1 - P0)).toNat
       else if wrap16 (P1 - P0) < 0 then repList seq_ccw (-wrap16 (P1 - P0)).toNat
       else [])
    ∧ (mainIter delay P1 P0).2 = P1 :=
  mainIter_spec delay P1 P0

/-- C1 (amended): for a foreground iteration with previous position P0
and snapshotted position P1, provided the mathematical difference
P1 - P0 lies within the signed 16-bit range: if P1 > P0 the engine
emits exactly (P1 - P0) full clockwise cycles of the 8-entry sequence,
if P1 < P0 exactly (P0 - P1) full counter-clockwise cycles, if
P1 = P0 no coil writes; and previous position becomes P1
unconditionally. (Without the range side condition the claim is false:
see the counterexample, where the 16-bit subtraction wraps.) -/
theorem c1_reconciliation (delay : Nat) (P0 P1 : Int)
    (hd1 : -32768 ≤ P1 - P0) (hd2 : P1 - P0 ≤ 32767) :
    coilsOf (mainIter delay P1 P0).1 =
      (if P0 < P1 then repList seq_cw (P1 - P0).toNat
       else if P1 < P0 then repList seq_ccw (P0 - P1).toNat
       else [])
    ∧ (mainIter delay P1 P0).2 = P1 := by
  obtain ⟨hc, hp⟩ := mainIter_spec delay P1 P0
  rw [wrap16_eq_self _ hd1 hd2] at hc
  refine ⟨?_, hp⟩
  rw [hc]
  by_cases h1 : P0 < P1
  · rw [if_pos (by omega : (0:Int) < P1 - P0), if_pos h1]
  · by_cases h2 : P1 < P0
    · rw [if_neg (by omega : ¬(0:Int) < P1 - P0), if_pos (by omega : P1 - P0 < 0),
        if_neg h1, if_pos h2]
      have he : (-(P1 - P0)).toNat = (P0 - P1).toNat := by omega
      rw [he]
    · rw [if_neg (by omega : ¬(0:Int) < P1 - P0), if_neg (by omega : ¬(P1 - P0 < 0)),
        if_neg h1, if_neg h2]

/-- C1 witness: with delay 1, previous position 0, snapshotted position
2, the engine emits exactly two clockwise cycles and previous position
becomes 2. -/
theorem c1_reconciliation_witness :
    coilsOf (mainIter 1 2 0).1 =
      (if (0 : Int) < 2 then repList seq_cw ((2 : Int) - 0).toNat
       else if (2 : Int) < 0 then repList seq_ccw ((0 : Int) - 2).toNat
       else [])
    ∧ (mainIter 1 2 0).2 = 2 :=
  c1_reconciliation 1 0 2 (by decide) (by decide)

/-- C1 counterexample: with previous position -32768 and snapshotted
position 32767 we have P1 > P0, but the engine does not emit
(P1 - P0) = 65535 clockwise cycles as the claim states: the 16-bit
subtraction wraps to -1 and the engine emits a single counter-clockwise
cycle. -/
theorem c1_counterexample :
    ((-32768 : Int) < 32767)
    ∧ coilsOf (mainIter 0 32767 (-32768)).1 = seq_ccw
    ∧ ¬(coilsOf (mainIter 0 32767 (-32768)).1 =
        repList seq_cw ((32767 : Int) - (-32768)).toNat) := by
  refine ⟨by decide, by decide, ?_⟩
  intro h
  have hlen := congrArg List.length h
  rw [length_repList] at hlen
  have h1 : (coilsOf (mainIter 0 32767 (-32768)).1).length = 8 := by decide
  have h2 : ((32767 : Int) - (-32768)).toNat = 65535 := by decide
  have h3 : seq_cw.length = 8 := by decide
  rw [h1, h2, h3] at hlen
  omega

/-- Processing a bare newline at a line boundary: the terminator lands
at cell 0, the line is empty, neither shared variable changes and the
cursor stays at 0. -/
theorem processEmptyLine (st : IsrState)
    (h0 : st.m_rx_index = 0) (h7 : st.m_received.length = 7) :
    (processBytes ['\n'] st).m_stepper_delay = st.m_stepper_delay
    ∧ (processBytes ['\n'] st).m_stepper_position = st.m_stepper_position
    ∧ (processBytes ['\n'] st).m_rx_index = 0 := by
  obtain ⟨buf, rx, dl, ps, oa, ot⟩ := st
  simp only at h0 h7 ⊢
  subst h0
  rcases buf with _ | ⟨r0, _ | ⟨r1, _ | ⟨r2, _ | ⟨r3, _ | ⟨r4, _ | ⟨r5, _ | ⟨r6, buf2⟩⟩⟩⟩⟩⟩⟩ <;>
    simp only [List.length_cons, List.length_nil] at h7 <;> try omega
  rcases buf2 with _ | ⟨r7, buf3⟩
  case cons.cons => simp only [List.length_cons] at h7; omega
  simp [processBytes, isrStep, List.getD, (by decide : ¬(NUL = 's')),
    (by decide : ¬(NUL = 'p'))]

/-- C2: for every completed `s` command line (fitting the 7-byte
buffer) whose decimal parse yields the signed 16-bit maximum 32767 or
the signed 16-bit minimum -32768, processing the line sets the delay
state to 0. The hypothesis also admits a parse result of 0, which is
what the underlying `atoi` actually returns when the remainder holds no
number at all, so genuinely unparseable remainders end in a zero delay
as well (via the assignment itself rather than the sentinel check). -/
theorem c2_sentinel_forces_zero (rest : List Char) (st : IsrState)
    (h0 : st.m_rx_index = 0) (h7 : st.m_received.length = 7)
    (hrnl : '\n' ∉ rest) (hz : NUL ∉ rest) (hlen : rest.length ≤ 6)
    (hparse : atoi rest = 32767 ∨ atoi rest = -32768 ∨ atoi rest = 0) :
    (processBytes ('s' :: rest ++ ['\n']) st).m_stepper_delay = 0 := by
  obtain ⟨hdel, -, -⟩ :=
    processLine_eval 's' rest st h0 h7 (by decide) hrnl hlen (fun _ => hz)
  rw [hdel, if_pos rfl]
  simp only [delayAfterParse]
  rcases hparse with hp | hp | hp <;> rw [hp] <;> decide

/-- C2 witness: the line s32767 followed by a newline, processed from
the reset state, leaves the delay at 0. -/
theorem c2_sentinel_forces_zero_witness :
    (processBytes ('s' :: ['3', '2', '7', '6', '7'] ++ ['\n']) initialState).m_stepper_delay
      = 0 :=
  c2_sentinel_forces_zero ['3', '2', '7', '6', '7'] initialState (by decide) (by decide)
    (by decide) (by decide) (by decide) (Or.inl (by decide))

/-- C3: for every completed command line s<N> (N rendered in canonical
decimal) with N strictly between the sentinels -32768 and 32767,
processing the line stores exactly N in the delay state: the
`uint16_t` cell holds N reduced modulo 2^16, whose signed 16-bit
reading is exactly N (for nonnegative N the cell holds the literal
value N). -/
theorem c3_valid_speed_sets_delay (N : Int) (st : IsrState)
    (hlo : -32768 < N) (hhi : N < 32767)
    (h0 : st.m_rx_index = 0) (h7 : st.m_received.length = 7) :
    (processBytes ('s' :: intToDecChars N ++ ['\n']) st).m_stepper_delay = (N % 65536).toNat
    ∧ uint16ToInt16
        ((processBytes ('s' :: intToDecChars N ++ ['\n']) st).m_stepper_delay) = N := by
  obtain ⟨hdel, -, -⟩ := processLine_eval 's' (intToDecChars N) st h0 h7 (by decide)
    (intToDecChars_no_newline N) (intToDecChars_length N (by omega) (by omega))
    (fun _ => intToDecChars_no_nul N)
  rw [hdel, if_pos rfl]
  simp only [delayAfterParse]
  rw [atoi_intToDecChars, wrap16_eq_self N (by omega) (by omega)]
  have h1 : toUInt16 N = (N % 65536).toNat := rfl
  rw [h1]
  have hne : ¬((N % 65536).toNat = 32767 ∨ (N % 65536).toNat = 32768) := by omega
  rw [if_neg hne]
  refine ⟨rfl, ?_⟩
  unfold uint16ToInt16
  split <;> omega

/-- C3 witness: the line s5 processed from the reset state stores the
delay 5. -/
theorem c3_valid_speed_sets_delay_witness :
    (processBytes ('s' :: intToDecChars 5 ++ ['\n']) initialState).m_stepper_delay
      = ((5 : Int) % 65536).toNat
    ∧ uint16ToInt16
        ((processBytes ('s' :: intToDecChars 5 ++ ['\n']) initialState).m_stepper_delay)
      = 5 :=
  c3_valid_speed_sets_delay 5 initialState (by decide) (by decide) (by decide) (by decide)

/-- C4: for every completed command line p<N> with N in the signed
16-bit range, processing the line stores N in the position state,
truncated and reinterpreted as a 16-bit value: the `uint16_t` cell
holds N modulo 2^16 and its signed 16-bit reading is exactly N. No
sentinel rejection is applied: the bounds -32768 and 32767 are
accepted as-is. -/
theorem c4_position_accepts_all (N : Int) (st : IsrState)
    (hlo : -32768 ≤ N) (hhi : N ≤ 32767)
    (h0 : st.m_rx_index = 0) (h7 : st.m_received.length = 7) :
    (processBytes ('p' :: intToDecChars N ++ ['\n']) st).m_stepper_position = (N % 65536).toNat
    ∧ uint16ToInt16
        ((processBytes ('p' :: intToDecChars N ++ ['\n']) st).m_stepper_position) = N := by
  obtain ⟨-, hpos, -⟩ := processLine_eval 'p' (intToDecChars N) st h0 h7 (by decide)
    (intToDecChars_no_newline N) (intToDecChars_length N hlo hhi)
    (fun _ => intToDecChars_no_nul N)
  rw [hpos, if_neg (by decide : ¬('p' = 's')), if_pos rfl, atoi_intToDecChars]
  have h1 : toUInt16 (wrap16 N) = (N % 65536).toNat := by
    unfold toUInt16 wrap16
    omega
  rw [h1]
  refine ⟨rfl, ?_⟩
  unfold uint16ToInt16
  split <;> omega

/-- C4 witness: the line p-32768 processed from the reset state stores
the sentinel value -32768 as-is (cell value 32768, signed reading
-32768). -/
theorem c4_position_accepts_all_witness :
    (processBytes ('p' :: intToDecChars (-32768) ++ ['\n']) initialState).m_stepper_position
      = ((-32768 : Int) % 65536).toNat
    ∧ uint16ToInt16
        ((processBytes ('p' :: intToDecChars (-32768) ++ ['\n']) initialState).m_stepper_position)
      = -32768 :=
  c4_position_accepts_all (-32768) initialState (by decide) (by decide) (by decide) (by decide)

/-- C5: for every completed line (fitting the buffer) whose first
character is neither s nor p — including the empty line — processing
the terminating newline leaves both the delay state and the position
state unchanged and resets the line cursor to 0. -/
theorem c5_unrecognized_no_change (bs : List Char) (st : IsrState)
    (h0 : st.m_rx_index = 0) (h7 : st.m_received.length = 7)
    (hnl : '\n' ∉ bs) (hlen : bs.length ≤ 7)
    (hs : ¬(bs.headD NUL = 's')) (hp : ¬(bs.headD NUL = 'p')) :
    (processBytes (bs ++ ['\n']) st).m_stepper_delay = st.m_stepper_delay
    ∧ (processBytes (bs ++ ['\n']) st).m_stepper_position = st.m_stepper_position
    ∧ (processBytes (bs ++ ['\n']) st).m_rx_index = 0 := by
  cases bs with
  | nil => exact processEmptyLine st h0 h7
  | cons c rest =>
    simp only [List.headD_cons] at hs hp
    have hc : c ≠ '\n' := by
      intro he; exact hnl (by rw [he]; exact List.mem_cons_self _ _)
    have hrest : '\n' ∉ rest := fun hm => hnl (List.mem_cons_of_mem _ hm)
    have hlen6 : rest.length ≤ 6 := by
      simp only [List.length_cons] at hlen; omega
    obtain ⟨hdel, hpos, hrx⟩ := processLine_eval c rest st h0 h7 hc hrest hlen6
      (fun hor => absurd hor (by
        rintro (h | h)
        · exact hs h
        · exact hp h))
    rw [hdel, hpos, hrx, if_neg hs, if_neg hs, if_neg hp]
    exact ⟨rfl, rfl, rfl⟩

/-- C5 witness: the line x1 processed from the reset state changes
neither shared variable and resets the cursor. -/
theorem c5_unrecognized_no_change_witness :
    (processBytes (['x', '1'] ++ ['\n']) initialState).m_stepper_delay
      = initialState.m_stepper_delay
    ∧ (processBytes (['x', '1'] ++ ['\n']) initialState).m_stepper_position
      = initialState.m_stepper_position
    ∧ (processBytes (['x', '1'] ++ ['\n']) initialState).m_rx_index = 0 :=
  c5_unrecognized_no_change ['x', '1'] initialState (by decide) (by decide) (by decide)
    (by decide) (by decide) (by decide)

/-- C9 (amended): a line of 8 or more bytes before its newline makes
the byte-append operation write at an index at or beyond the 7-byte
buffer capacity (the cursor is incremented with no bound check); a line
of exactly 7 bytes keeps every byte-append in bounds (indices 0..6),
but still overflows the buffer through the NUL-terminator write, which
lands at index 7. -/
theorem c9_line_overflow (bs : List Char) (hnl : '\n' ∉ bs) :
    (8 ≤ bs.length → bs.length ≤ 255 →
      (processBytes (bs ++ ['\n']) initialState).oob_append = true)
    ∧ (bs.length = 7 →
      (processBytes (bs ++ ['\n']) initialState).oob_term = true) := by
  have hsplit : processBytes (bs ++ ['\n']) initialState
      = isrStep (processBytes bs initialState) '\n' := by
    simp [processBytes, List.foldl_append]
  constructor
  · intro h8 h255
    rw [hsplit, isrStep_newline_oob_append]
    exact oob_append_reach bs initialState hnl (by decide)
      (by simp only [initialState]; omega) (by simp only [initialState]; omega)
  · intro h7
    rw [hsplit]
    apply isrStep_newline_oob_term
    rw [processBytes_rx_index bs initialState hnl (by simp only [initialState]; omega)]
    simp only [initialState]
    omega

/-- C9 witness: an 8-byte line sets the append out-of-bounds flag, and
a 7-byte line sets the terminator out-of-bounds flag. -/
theorem c9_line_overflow_witness :
    (processBytes (['p', '1', '2', '3', '4', '5', '6', '7'] ++ ['\n']) initialState).oob_append
      = true
    ∧ (processBytes (['p', '1', '2', '3', '4', '5', '6'] ++ ['\n']) initialState).oob_term
      = true :=
  ⟨(c9_line_overflow ['p', '1', '2', '3', '4', '5', '6', '7'] (by decide)).1 (by decide)
      (by decide),
   (c9_line_overflow ['p', '1', '2', '3', '4', '5', '6'] (by decide)).2 (by decide)⟩

/-- C9 counterexample: the claim as stated says any line of 7 or more
bytes makes the byte-append write out of bounds; but for this line of
exactly 7 bytes every byte-append stays in bounds (the append
out-of-bounds flag is false after processing) — only the terminator
write overflows. -/
theorem c9_counterexample :
    (['p', '1', '2', '3', '4', '5', '6'] : List Char).length = 7
    ∧ (processBytes (['p', '1', '2', '3', '4', '5', '6'] ++ ['\n']) initialState).oob_append
      = false :=
  ⟨by decide, by decide⟩

/-- C8: for every interrupt schedule (any bursts of completed command
lines delivered at any of the scheduling points around the foreground
micro-operations) and every starting shared memory and interrupt-enable
state, the snapshot read by the foreground loop equals, byte for byte,
the shared memory as it stands when `cli()` executes (commands landing
before the critical section are applied; during the four reads the
interrupt is masked): both 16-bit fields are read from one consistent
memory state, so no single field is ever torn. -/
theorem c8_snapshot_untorn (m0 : Mem) (en0 : Bool) (sched : Nat → List IsrWrite) :
    (runSnapshot m0 en0 sched).dLo = (if en0 then applyBatch m0 (sched 0) else m0).dLo
    ∧ (runSnapshot m0 en0 sched).dHi = (if en0 then applyBatch m0 (sched 0) else m0).dHi
    ∧ (runSnapshot m0 en0 sched).pLo = (if en0 then applyBatch m0 (sched 0) else m0).pLo
    ∧ (runSnapshot m0 en0 sched).pHi = (if en0 then applyBatch m0 (sched 0) else m0).pHi
    ∧ (runSnapshot m0 en0 sched).dLo + 256 * (runSnapshot m0 en0 sched).dHi
        = memDelay (if en0 then applyBatch m0 (sched 0) else m0)
    ∧ (runSnapshot m0 en0 sched).pLo + 256 * (runSnapshot m0 en0 sched).pHi
        = memPos (if en0 then applyBatch m0 (sched 0) else m0) := by
  cases en0 <;>
    simp [runSnapshot, runFrom, snapshotProg, stepSched, execOp, memDelay, memPos]
